import Mathlib

/-
Formal model of the C++ core of the react-native-audio-waveform library.

Audio sample values (C++ `float`) are modelled as rationals `ℚ`: the
operations the waveform engine performs on sample values are absolute
value, maximum, one division by the per-channel maximum and one
multiplication by the scale, all of which are modelled exactly.
Buffers and envelopes are lists; the 2-D envelope is a list of channel
rows, `env[channel][bucket]`, exactly as in the source
(`std::vector<std::vector<float>>`).

Threaded code is modelled by serializing the workers in thread order
(worker `t` runs to completion before worker `t+1`); the in-place writes
to the pre-allocated result matrix are modelled as updates of a function
`ℕ × ℕ → ℚ` (channel, bucket ↦ value) that starts as the constant `0`,
matching the zero-initialised `std::vector` result.  The atomic
cancellation flag is modelled by the sequence of values the loop reads
when it polls: a function `ℕ → Bool` from the bucket index at which the
poll happens to the value read, plus (for the threaded path) the value
`flagEnd` read by the final check that runs after all workers joined.
-/

namespace WaveformProcessor

/-- Cancellation is polled when `pixel % 100 == 0`
    (`WaveformProcessor.cpp`, single- and multi-threaded loops). -/
def pollAt (p : ℕ) : Bool := p % 100 == 0

/-- The strided scalar inner loop
    `for (i = startSample; i < endSample; i += numChannels)
       maxAmplitude = max(maxAmplitude, abs(audioData[i]))`. -/
def stridedMaxAbs (pcm : List ℚ) (step start stop : ℕ) (acc : ℚ) : ℚ :=
  if _h : start < stop ∧ 0 < step then
    stridedMaxAbs pcm step (start + step) stop (max acc |pcm.getD start 0|)
  else acc
termination_by stop - start
decreasing_by omega

/-- One bucket of one channel, scalar path: `startSample`, `endSample`
    and the strided loop exactly as in `processWaveform`. -/
def processPixelChannel (pcm : List ℚ) (Sn Cn pixel channel : ℕ) : ℚ :=
  stridedMaxAbs pcm Cn (pixel * Sn * Cn + channel)
    (min (pixel * Sn * Cn + channel + Sn * Cn) pcm.length) 0

/-- The four-lane SIMD accumulation loop of `findMaxAbsNeon` /
    `findMaxAbsSSE2`: four lanes of running absolute maxima, consuming
    four samples per step; returns the lanes and the unconsumed tail. -/
def simdLanes (l0 l1 l2 l3 : ℚ) : List ℚ → (ℚ × ℚ × ℚ × ℚ) × List ℚ
  | a :: b :: c :: d :: rest =>
      simdLanes (max l0 |a|) (max l1 |b|) (max l2 |c|) (max l3 |d|) rest
  | rest => ((l0, l1, l2, l3), rest)

/-- The scalar fallback `findMaxAbsScalar`. -/
def findMaxAbsScalar (data : List ℚ) : ℚ :=
  data.foldl (fun m x => max m |x|) 0

/-- `findMaxAbs`: SIMD four-lane loop, horizontal lane reduction
    (`vmax` of low/high pairs then pairwise max), then the scalar tail
    loop, with the `count == 0` early return. -/
def findMaxAbs (data : List ℚ) : ℚ :=
  if data.length = 0 then 0
  else
    let r := simdLanes 0 0 0 0 data
    let maxVal := max (max r.1.1 r.1.2.2.1) (max r.1.2.1 r.1.2.2.2)
    r.2.foldl (fun m x => max m |x|) maxVal

/-- One bucket of one channel on the multi-threaded path: mono uses the
    SIMD reduction over the contiguous slice
    `&audioData[startSample] .. count = endSample - startSample`;
    other channel counts use the strided scalar loop. -/
def processPixelChannelMT (pcm : List ℚ) (Sn Cn pixel channel : ℕ) : ℚ :=
  if Cn = 1 then
    findMaxAbs ((pcm.drop (pixel * Sn * Cn + channel)).take
      (min (pixel * Sn * Cn + channel + Sn * Cn) pcm.length - (pixel * Sn * Cn + channel)))
  else processPixelChannel pcm Sn Cn pixel channel

/-- The channel loop of one bucket on the multi-threaded path, writing
    `result[channel][pixel]` for every channel, as function updates. -/
def writePixel (pcm : List ℚ) (Sn Cn : ℕ) (f : ℕ × ℕ → ℚ) (pixel : ℕ) : ℕ × ℕ → ℚ :=
  (List.range Cn).foldl
    (fun g channel =>
      Function.update g (channel, pixel) (processPixelChannelMT pcm Sn Cn pixel channel))
    f

/-- Single-threaded progress condition:
    `pixel % max(numPixels / 10, 1) == 0 || pixel % 1000 == 0`. -/
def stCond (nP p : ℕ) : Bool := p % max (nP / 10) 1 == 0 || p % 1000 == 0

/-- Multi-threaded progress condition (on the shared processed counter):
    `processed % max(numPixels / 20, 1) == 0 || processed % 500 == 0`. -/
def mtCond (nP q : ℕ) : Bool := q % max (nP / 20) 1 == 0 || q % 500 == 0

/-- The single-threaded bucket loop: polls cancellation every 100
    buckets, and reports progress `(pixel + 1) / numPixels` at the
    configured cadence.  Returns whether it observed cancellation and
    the sequence of reported progress values; the envelope entries are
    order-independent and are produced by `stEnvelope`. -/
def stLoop (nP : ℕ) (flag : ℕ → Bool) (p : ℕ) : Bool × List ℚ :=
  if _h : p < nP then
    if pollAt p && flag p then (true, [])
    else
      let rest := stLoop nP flag (p + 1)
      (rest.1, (if stCond nP p then [((p : ℚ) + 1) / (nP : ℚ)] else []) ++ rest.2)
  else (false, [])
termination_by nP - p

/-- The envelope produced by the single-threaded loop:
    `result[channel][pixel] = maxAmplitude` of the strided loop. -/
def stEnvelope (pcm : List ℚ) (Sn Cn nP : ℕ) : List (List ℚ) :=
  (List.range Cn).map fun channel =>
    (List.range nP).map fun pixel => processPixelChannel pcm Sn Cn pixel channel

/-- One worker of the multi-threaded path, serialized: iterates its
    bucket range, polling cancellation every 100 buckets (returning
    early when it observes the flag), writing every channel of each
    bucket, incrementing the shared processed counter, and reporting
    `processed / numPixels` at the configured cadence. -/
def mtWorker (pcm : List ℚ) (Sn Cn nP : ℕ) (flag : ℕ → Bool) (endP p counter : ℕ)
    (f : ℕ × ℕ → ℚ) : ℕ × List ℚ × (ℕ × ℕ → ℚ) :=
  if _h : p < endP then
    if pollAt p && flag p then (counter, [], f)
    else
      let f' := writePixel pcm Sn Cn f p
      let rest := mtWorker pcm Sn Cn nP flag endP (p + 1) (counter + 1) f'
      (rest.1,
       (if mtCond nP (counter + 1) then [((counter : ℚ) + 1) / (nP : ℚ)] else []) ++ rest.2.1,
       rest.2.2)
  else (counter, [], f)
termination_by endP - p

/-- All workers of the multi-threaded path in thread order: worker `t`
    covers buckets `[t * pixelsPerThread, min(t * pixelsPerThread +
    pixelsPerThread, numPixels))`, threading the processed counter, the
    reported progress values and the result matrix through. -/
def mtRun (pcm : List ℚ) (Sn Cn nP nt ppt : ℕ) (flag : ℕ → Bool) :
    ℕ × List ℚ × (ℕ × ℕ → ℚ) :=
  (List.range nt).foldl
    (fun st t =>
      let w := mtWorker pcm Sn Cn nP flag (min (t * ppt + ppt) nP) (t * ppt) st.1 st.2.2
      (w.1, st.2.1 ++ w.2.1, w.2.2))
    (0, [], fun _ => 0)

/-- `WaveformProcessor::processWaveform`.  Returns the envelope together
    with the serialized sequence of progress values passed to the
    progress callback.  `S` and `C` are the C++ `int` arguments
    `samplesPerPixel` and `numChannels`; `hw` is
    `std::thread::hardware_concurrency()`; `flag` gives the value read
    at each cancellation poll (indexed by the bucket at which the poll
    happens) and `flagEnd` the value read by the final check of the
    multi-threaded path after all workers joined. -/
def processWaveformFull (pcm : List ℚ) (S C : ℤ) (hw : ℕ) (flag : ℕ → Bool)
    (flagEnd : Bool) : List (List ℚ) × List ℚ :=
  if pcm.length = 0 ∨ S ≤ 0 ∨ C ≤ 0 then ([], [])
  else
    let Sn := S.toNat
    let Cn := C.toNat
    let nP := pcm.length / Sn / Cn
    if nP = 0 then ([], [])
    else
      let nt := min hw nP
      if nt ≤ 1 then
        let r := stLoop nP flag 0
        if r.1 then ([], r.2)
        else (stEnvelope pcm Sn Cn nP, r.2 ++ [(nP : ℚ) / (nP : ℚ)])
      else
        let ppt := (nP + nt - 1) / nt
        let run := mtRun pcm Sn Cn nP nt ppt flag
        if flagEnd then ([], run.2.1)
        else
          ((List.range Cn).map fun c => (List.range nP).map fun p => run.2.2 (c, p),
           run.2.1 ++ [(nP : ℚ) / (nP : ℚ)])

/-- One scheduling step of the progress side of the multi-threaded
    path.  In the source each bucket contributes two separately
    scheduled events: the atomic
    `pixelsProcessed.fetch_add(1, relaxed) + 1`, and — when the report
    condition holds for the fetched value — the later mutex-guarded
    callback invocation `progressCallback(processed / numPixels)`.
    The state is the shared counter, the values delivered so far, and
    per worker the number of buckets of its range not yet fetched plus
    the fetched value whose callback is still pending.  Scheduling
    worker `t` invokes its pending callback if it has one, fetches the
    counter for its next bucket otherwise (keeping the value pending
    exactly when the report condition holds), and is a no-op when the
    worker's range is exhausted. -/
def mtSchedStep (nP : ℕ) (st : ℕ × List ℚ × (ℕ → ℕ × Option ℕ)) (t : ℕ) :
    ℕ × List ℚ × (ℕ → ℕ × Option ℕ) :=
  match (st.2.2 t).2 with
  | some v =>
      (st.1, st.2.1 ++ [(v : ℚ) / (nP : ℚ)],
       Function.update st.2.2 t ((st.2.2 t).1, none))
  | none =>
      if (st.2.2 t).1 = 0 then st
      else
        (st.1 + 1, st.2.1,
         Function.update st.2.2 t
           ((st.2.2 t).1 - 1, if mtCond nP (st.1 + 1) then some (st.1 + 1) else none))

/-- The progress values delivered to the callback during one
    multi-threaded run of `processWaveform` whose real-time
    interleaving of the workers' fetch and callback events is `sched`
    (the worker scheduled at each point).  Worker `t < nt` owns the
    bucket range `[t·ppt, min(t·ppt + ppt, nP))`, as in `mtRun`; a run
    is complete when `sched` drives every worker to the end of its
    range.  `mtRun` replays the one schedule that runs the workers in
    thread order; this definition replays any schedule. -/
def mtDeliveredSeq (nP nt ppt : ℕ) (sched : List ℕ) : List ℚ :=
  (sched.foldl (mtSchedStep nP)
    (0, [], fun t => (if t < nt then min (t * ppt + ppt) nP - t * ppt else 0, none))).2.1

/-- The per-channel maximum amplitude above the threshold
    (`if (abs(sample) >= threshold) maxAmplitude = max(...)`). -/
def maxAboveThreshold (channelData : List ℚ) (threshold : ℚ) : ℚ :=
  channelData.foldl (fun m s => if threshold ≤ |s| then max m |s| else m) 0

/-- One channel of `normalizeWaveform`: empty channels pass through;
    if the above-threshold maximum is positive, below-threshold samples
    become `0` and the rest become `(sample / maxAmplitude) * scale`;
    otherwise the whole channel becomes zeros. -/
def normalizeChannel (channelData : List ℚ) (scale threshold : ℚ) : List ℚ :=
  if channelData.isEmpty then []
  else
    let maxAmplitude := maxAboveThreshold channelData threshold
    if 0 < maxAmplitude then
      channelData.map fun s => if |s| < threshold then 0 else s / maxAmplitude * scale
    else List.replicate channelData.length 0

/-- `WaveformProcessor::normalizeWaveform`. -/
def normalizeWaveform (data : List (List ℚ)) (scale threshold : ℚ) : List (List ℚ) :=
  if data.isEmpty then []
  else data.map fun ch => normalizeChannel ch scale threshold

end WaveformProcessor

namespace WaveformExtractor

open WaveformProcessor

/-- The clamp performed by `WaveformExtractorBase::updateProgress`. -/
def clampProgress (q : ℚ) : ℚ := if q < 0 then 0 else if 1 < q then 1 else q

/-- Observable outcome of one `extract` run: the value the future
    resolves with (or the re-thrown decode failure), the finally stored
    progress, and the sequence of values passed to the progress
    callback. -/
structure ExtractOutcome where
  result : Except String (List (List ℚ))
  progress : ℚ
  callbacks : List ℚ

/-- `WaveformExtractorBase::extract`.  `decode` is the platform
    `decodeAudioData` capability; `c1 c2 c3 c4` are the values of the
    cancellation flag read at the four checkpoints (before decode,
    after decode, after processing, after normalization); `flag` /
    `flagEnd` are the reads of the polls inside the processor.  The
    extraction parameters are the hard-coded defaults of the source:
    `samplesPerPixel = 100`, `numChannels = 2`, `normalize = true`,
    `scale = 1.0`, `threshold = 0.0`. -/
def extractModel (decode : String → Except String (List ℚ)) (config : String) (hw : ℕ)
    (c1 c2 c3 c4 : Bool) (flag : ℕ → Bool) (flagEnd : Bool) : ExtractOutcome :=
  if c1 then ⟨.ok [], 0, [1/10, 0]⟩
  else
    match decode config with
    | .error e => ⟨.error e, 0, [1/10]⟩
    | .ok audioData =>
      if c2 then ⟨.ok [], 0, [1/10, 0]⟩
      else
        let proc := processWaveformFull audioData 100 2 hw flag flagEnd
        let emitted := [1/10, 1/2] ++ proc.2.map fun p => clampProgress (1/2 + p * (3/10))
        if c3 then ⟨.ok [], 0, emitted ++ [0]⟩
        else
          let normalized := normalizeWaveform proc.1 1 0
          if c4 then ⟨.ok [], 0, emitted ++ [4/5] ++ [0]⟩
          else ⟨.ok normalized, 1, emitted ++ [4/5] ++ [1]⟩

/-- The callback sequence of one uncancelled, non-failing run of
    `extract` whose processing takes the multi-threaded path with the
    worker interleaving `sched`: `0.1` at start, `0.5` after decode,
    the delivered processor reports mapped through the
    `0.5 + 0.3 · p` progress mapper (with the `updateProgress` clamp),
    the processor's final full report after the join, then `0.8`
    before normalization and `1.0` at completion. -/
def extractMTCallbacks (nP nt ppt : ℕ) (sched : List ℕ) : List ℚ :=
  [1/10, 1/2]
    ++ (mtDeliveredSeq nP nt ppt sched).map
        (fun p => clampProgress (1/2 + p * (3/10)))
    ++ [clampProgress (1/2 + (nP : ℚ) / (nP : ℚ) * (3/10))]
    ++ [4/5, 1]

end WaveformExtractor

namespace AudioWaveformFactory

/-- The error kinds `createPlayer` can raise for registry reasons. -/
inductive RegError where
  | duplicateKey
  | capacityExceeded
deriving DecidableEq

/-- `MAX_PLAYERS = 30`. -/
def MAX_PLAYERS : ℕ := 30

/-- `AudioWaveformFactoryImpl::createPlayer`, modelled on the key set of
    the player map: the duplicate-key check runs first, then the
    capacity check, then the new key is stored.  (The platform
    `createPlatformPlayer` call is modelled as succeeding; its failure
    leaves the map unchanged just like the error cases.) -/
def createPlayer (key : String) (players : Finset String) :
    Except RegError (Finset String) :=
  if key ∈ players then .error .duplicateKey
  else if MAX_PLAYERS ≤ players.card then .error .capacityExceeded
  else .ok (insert key players)

/-- The operations that mutate the player map. -/
inductive PlayerOp where
  | create (key : String)
  | remove (key : String)
  | stopAll

/-- Effect of one registry operation on the player map's key set:
    a failing `createPlayer` leaves the map unchanged, `removePlayer`
    erases the key, `stopAllPlayers` clears the map. -/
def playerStep (players : Finset String) : PlayerOp → Finset String
  | .create key =>
      match createPlayer key players with
      | .ok players' => players'
      | .error _ => players
  | .remove key => players.erase key
  | .stopAll => ∅

/-- A registered player as `stopAllPlayers` observes it: whether
    `isPlaying()` reports playing, and the outcome of `stop()`:
    `none` models a null stop future (nothing awaited), `some (.ok b)`
    a future that resolved with `b`, `some (.error ())` a call that
    threw. -/
structure PlayerModel where
  isPlaying : Bool
  stopOutcome : Option (Except Unit Bool)

/-- Whether one player's stop completed cleanly in the sense of the
    `stopAllPlayers` loop: a thrown exception or a `false` result
    clears `allStopped`; a null future or a `true` result does not. -/
def stopCleanly (p : PlayerModel) : Bool :=
  match p.stopOutcome with
  | none => true
  | some (.ok b) => b
  | some (.error _) => false

/-- `AudioWaveformFactoryImpl::stopAllPlayers`: folds `allStopped` over
    the players (only those whose state reports playing can clear it),
    clears the map, and returns the keys whose `stop()` was invoked. -/
def stopAllPlayers (players : List (String × PlayerModel)) :
    Bool × List (String × PlayerModel) × List String :=
  (players.foldl
     (fun allStopped kp => if kp.2.isPlaying then allStopped && stopCleanly kp.2 else allStopped)
     true,
   [],
   (players.filter fun kp => kp.2.isPlaying).map Prod.fst)

/-- An extractor as `stopAllExtractors` observes it: the outcome of its
    `cancel()` call (`.error ()` models a throw). -/
structure ExtractorModel where
  cancelOutcome : Except Unit Unit

/-- `AudioWaveformFactoryImpl::stopAllExtractors`: cancels every
    extractor with each outcome caught and discarded, clears the map,
    and returns the literal `true`. -/
def stopAllExtractors (extractors : List (String × ExtractorModel)) :
    Bool × List (String × ExtractorModel) :=
  let _cancelOutcomes := extractors.map fun kp => kp.2.cancelOutcome
  (true, [])

end AudioWaveformFactory

/-
Lemma layer.  The proofs below characterise the loop-shaped definitions
above as folds over index ranges, show the SIMD reduction equal to the
scalar one, and derive the claim theorems.
-/

namespace WaveformProcessor

theorem foldl_max_abs_init (l : List ℚ) (a : ℚ) (ha : 0 ≤ a) :
    l.foldl (fun m x => max m |x|) a = max a (l.foldl (fun m x => max m |x|) 0) := by
  induction l generalizing a with
  | nil => simpa using (max_eq_left ha).symm
  | cons x t ih =>
      simp only [List.foldl_cons]
      rw [ih (max a |x|) (le_trans ha (le_max_left _ _)),
          ih (max 0 |x|) (le_max_left _ _)]
      rw [max_eq_right (abs_nonneg x)]
      rw [max_assoc]

theorem foldl_max_abs_eq_range (l : List ℚ) (a : ℚ) :
    l.foldl (fun m x => max m |x|) a =
      (List.range l.length).foldl (fun m k => max m |l.getD k 0|) a := by
  induction l generalizing a with
  | nil => simp
  | cons x t ih =>
      simp only [List.foldl_cons, List.length_cons, List.range_succ_eq_map,
        List.foldl_cons, List.foldl_map, List.getD_cons_zero, List.getD_cons_succ]
      exact ih (max a |x|)

theorem simdLanes_foldl (l : List ℚ) (l0 l1 l2 l3 : ℚ) :
    (simdLanes l0 l1 l2 l3 l).2.foldl (fun m x => max m |x|)
      (max (max (simdLanes l0 l1 l2 l3 l).1.1 (simdLanes l0 l1 l2 l3 l).1.2.2.1)
           (max (simdLanes l0 l1 l2 l3 l).1.2.1 (simdLanes l0 l1 l2 l3 l).1.2.2.2))
    = l.foldl (fun m x => max m |x|) (max (max l0 l2) (max l1 l3)) := by
  induction l0, l1, l2, l3, l using simdLanes.induct with
  | case1 l0 l1 l2 l3 a b c d rest ih =>
      rw [simdLanes]
      rw [ih]
      simp only [List.foldl_cons]
      congr 1
      simp only [max_comm, max_assoc, max_left_comm]
  | case2 l0 l1 l2 l3 rest h =>
      have heq : simdLanes l0 l1 l2 l3 rest = ((l0, l1, l2, l3), rest) := by
        rw [simdLanes.eq_def]
        match rest, h with
        | [], _ => rfl
        | [a], _ => rfl
        | [a, b], _ => rfl
        | [a, b, c], _ => rfl
        | a :: b :: c :: d :: r, h => exact absurd rfl (by intro hh; exact h a b c d r hh)
      rw [heq]

theorem findMaxAbs_eq_scalar (data : List ℚ) : findMaxAbs data = findMaxAbsScalar data := by
  rcases data with _ | ⟨x, t⟩
  · rfl
  · have h := simdLanes_foldl (x :: t) 0 0 0 0
    simp only [max_self] at h
    simpa [findMaxAbs, findMaxAbsScalar] using h

theorem stridedMaxAbs_eq (pcm : List ℚ) (step start stop : ℕ) (acc : ℚ) (hstep : 0 < step) :
    stridedMaxAbs pcm step start stop acc =
      (List.range ((stop - start + step - 1) / step)).foldl
        (fun m k => max m |pcm.getD (start + k * step) 0|) acc := by
  rw [stridedMaxAbs]
  by_cases hlt : start < stop
  · rw [dif_pos ⟨hlt, hstep⟩]
    rw [stridedMaxAbs_eq pcm step (start + step) stop (max acc |pcm.getD start 0|) hstep]
    have key : (stop - (start + step) + step - 1) / step = (stop - start - 1) / step := by
      rcases le_or_lt step (stop - start) with h | h
      · congr 1
        omega
      · rw [Nat.div_eq_of_lt (by omega), Nat.div_eq_of_lt (by omega)]
    have key2 : (stop - start + step - 1) / step = (stop - start - 1) / step + 1 := by
      have h : stop - start + step - 1 = (stop - start - 1) + step := by omega
      rw [h, Nat.add_div_right _ hstep]
    rw [key, key2, List.range_succ_eq_map, List.foldl_cons, List.foldl_map]
    have hidx : ∀ m : ℚ, ∀ k : ℕ,
        max m |pcm.getD (start + Nat.succ k * step) 0|
          = max m |pcm.getD (start + step + k * step) 0| := by
      intro m k
      have : start + Nat.succ k * step = start + step + k * step := by
        rw [Nat.succ_mul]; ring
      rw [this]
    simp only [hidx, Nat.zero_mul, Nat.add_zero]
  · rw [dif_neg (by omega)]
    have : (stop - start + step - 1) / step = 0 := by
      apply Nat.div_eq_of_lt
      omega
    rw [this]
    rfl
termination_by stop - start

theorem window_div (Sn Cn d : ℕ) (hS : 0 < Sn) (hC : 0 < Cn)
    (h1 : Sn * Cn - Cn < d) (h2 : d ≤ Sn * Cn) : (d + Cn - 1) / Cn = Sn := by
  have hCA : Cn ≤ Sn * Cn := Nat.le_mul_of_pos_left Cn hS
  apply Nat.div_eq_of_lt_le
  · omega
  · have h3 : (Sn + 1) * Cn = Sn * Cn + Cn := Nat.succ_mul Sn Cn
    omega

theorem bucket_sample_bound (N Sn Cn b : ℕ) (hb : b < N / Sn / Cn) :
    b * Sn * Cn + Sn * Cn ≤ N := by
  have hdd : N / Sn / Cn = N / (Sn * Cn) := Nat.div_div_eq_div_mul N Sn Cn
  have h1 : (b + 1) * (Sn * Cn) ≤ (N / (Sn * Cn)) * (Sn * Cn) :=
    Nat.mul_le_mul_right _ (by omega)
  have h2 : (N / (Sn * Cn)) * (Sn * Cn) ≤ N := Nat.div_mul_le_self N (Sn * Cn)
  have h3 : (b + 1) * (Sn * Cn) = b * Sn * Cn + Sn * Cn := by ring
  omega

theorem processPixelChannel_eq_fold (pcm : List ℚ) (Sn Cn b c : ℕ) (hS : 0 < Sn)
    (hC : 0 < Cn) (hb : b < pcm.length / Sn / Cn) (hc : c < Cn) :
    processPixelChannel pcm Sn Cn b c =
      (List.range Sn).foldl (fun m k => max m |pcm.getD (b * Sn * Cn + k * Cn + c) 0|) 0 := by
  unfold processPixelChannel
  rw [stridedMaxAbs_eq pcm Cn _ _ 0 hC]
  have hN : b * Sn * Cn + Sn * Cn ≤ pcm.length := bucket_sample_bound pcm.length Sn Cn b hb
  have hCA : Cn ≤ Sn * Cn := Nat.le_mul_of_pos_left Cn hS
  have hcount :
      (min (b * Sn * Cn + c + Sn * Cn) pcm.length - (b * Sn * Cn + c) + Cn - 1) / Cn = Sn := by
    apply window_div Sn Cn _ hS hC <;> omega
  rw [hcount]
  have hidx : ∀ m : ℚ, ∀ k : ℕ,
      max m |pcm.getD (b * Sn * Cn + c + k * Cn) 0|
        = max m |pcm.getD (b * Sn * Cn + k * Cn + c) 0| := by
    intro m k
    have h : b * Sn * Cn + c + k * Cn = b * Sn * Cn + k * Cn + c := by ring
    rw [h]
  simp only [hidx]

theorem slice_getD (pcm : List ℚ) (start d k : ℕ) (hk : k < d)
    (hd : start + d ≤ pcm.length) :
    ((pcm.drop start).take d).getD k 0 = pcm.getD (start + k) 0 := by
  have h1 : k < pcm.length - start := by omega
  have h2 : start + k < pcm.length := by omega
  rw [List.getD_eq_getElem?_getD, List.getD_eq_getElem?_getD]
  rw [List.getElem?_take, if_pos hk, List.getElem?_drop]

theorem slice_length (pcm : List ℚ) (start d : ℕ) (hd : start + d ≤ pcm.length) :
    ((pcm.drop start).take d).length = d := by
  simp only [List.length_take, List.length_drop]
  omega

theorem processPixelChannelMT_eq (pcm : List ℚ) (Sn Cn b c : ℕ) (hS : 0 < Sn)
    (hC : 0 < Cn) (hb : b < pcm.length / Sn / Cn) (hc : c < Cn) :
    processPixelChannelMT pcm Sn Cn b c = processPixelChannel pcm Sn Cn b c := by
  unfold processPixelChannelMT
  by_cases h1 : Cn = 1
  · rw [if_pos h1]
    subst h1
    have hc0 : c = 0 := by omega
    subst hc0
    have hN : b * Sn * 1 + Sn * 1 ≤ pcm.length := bucket_sample_bound pcm.length Sn 1 b hb
    set start := b * Sn * 1 + 0 with hstart
    set stop := min (b * Sn * 1 + 0 + Sn * 1) pcm.length with hstop
    have hss : start ≤ stop := by omega
    have hstopN : stop ≤ pcm.length := min_le_right _ _
    have hd : start + (stop - start) ≤ pcm.length := by omega
    rw [findMaxAbs_eq_scalar, findMaxAbsScalar, foldl_max_abs_eq_range,
      slice_length pcm start (stop - start) hd]
    rw [processPixelChannel, stridedMaxAbs_eq pcm 1 _ _ 0 Nat.one_pos]
    have hcount : (stop - start + 1 - 1) / 1 = stop - start := by simp
    rw [hcount]
    apply List.foldl_ext
    intro m k hk
    rw [slice_getD pcm start (stop - start) k (List.mem_range.mp hk) hd]
    have hix : start + k = b * Sn * 1 + 0 + k * 1 := by rw [hstart]; ring
    rw [hix]
  · rw [if_neg h1]

theorem update_fold_apply (val : ℕ → ℚ) (p : ℕ) (n : ℕ) (f : ℕ × ℕ → ℚ) (cp : ℕ × ℕ) :
    ((List.range n).foldl (fun g channel => Function.update g (channel, p) (val channel)) f) cp
      = if cp.1 < n ∧ cp.2 = p then val cp.1 else f cp := by
  induction n with
  | zero => rw [List.range_zero, List.foldl_nil, if_neg (by omega)]
  | succ n ih =>
      rw [List.range_succ, List.foldl_append, List.foldl_cons, List.foldl_nil,
        Function.update_apply, ih]
      rcases cp with ⟨c, q⟩
      by_cases h1 : (c, q) = (n, p)
      · rw [if_pos h1]
        have hc : c = n := congrArg Prod.fst h1
        have hq : q = p := congrArg Prod.snd h1
        subst hc; subst hq
        rw [if_pos ⟨by omega, rfl⟩]
      · rw [if_neg h1]
        have hne : ¬(c = n ∧ q = p) := by
          intro ⟨hc, hq⟩; exact h1 (by rw [hc, hq])
        by_cases h2 : c < n ∧ q = p
        · rw [if_pos h2, if_pos ⟨by omega, h2.2⟩]
        · rw [if_neg h2, if_neg (by simp only [Prod.fst, Prod.snd] at *; omega)]

theorem writePixel_apply (pcm : List ℚ) (Sn Cn : ℕ) (f : ℕ × ℕ → ℚ) (p : ℕ) (cp : ℕ × ℕ) :
    writePixel pcm Sn Cn f p cp =
      if cp.1 < Cn ∧ cp.2 = p then processPixelChannelMT pcm Sn Cn p cp.1 else f cp := by
  unfold writePixel
  exact update_fold_apply (fun channel => processPixelChannelMT pcm Sn Cn p channel) p Cn f cp

theorem stLoop_false (nP p : ℕ) :
    stLoop nP (fun _ => false) p =
      (false,
       ((List.range' p (nP - p)).filter (stCond nP)).map
         (fun q : ℕ => ((q : ℚ) + 1) / (nP : ℚ))) := by
  rw [stLoop]
  by_cases hlt : p < nP
  · rw [dif_pos hlt]
    simp only [Bool.and_false, Bool.false_eq_true, if_false]
    rw [stLoop_false nP (p + 1)]
    have hr : nP - p = (nP - (p + 1)) + 1 := by omega
    rw [hr, List.range'_succ, List.filter_cons]
    by_cases hc : stCond nP p
    · simp only [hc, if_true, List.map_cons]
      rfl
    · simp only [hc, Bool.false_eq_true, if_false]
      rfl
  · rw [dif_neg hlt]
    have hr : nP - p = 0 := by omega
    rw [hr]
    rfl
termination_by nP - p

theorem stLoop_cancelled (nP : ℕ) (flag : ℕ → Bool) (p : ℕ)
    (h : ∃ q, p ≤ q ∧ q < nP ∧ pollAt q = true ∧ flag q = true) :
    (stLoop nP flag p).1 = true := by
  obtain ⟨q, hpq, hq, hpoll, hflag⟩ := h
  rw [stLoop]
  have hlt : p < nP := by omega
  rw [dif_pos hlt]
  by_cases hc : pollAt p && flag p
  · rw [if_pos hc]
  · rw [if_neg hc]
    simp only
    apply stLoop_cancelled nP flag (p + 1)
    refine ⟨q, ?_, hq, hpoll, hflag⟩
    rcases Nat.eq_or_lt_of_le hpq with heq | hlt2
    · exfalso
      apply hc
      rw [← heq] at hpoll hflag
      rw [hpoll, hflag]
      rfl
    · omega
termination_by nP - p

theorem ceil_mul_ge (nP nt : ℕ) (h1 : 0 < nt) : nP ≤ (nP + nt - 1) / nt * nt := by
  have hdm := Nat.div_add_mod (nP + nt - 1) nt
  have hmlt : (nP + nt - 1) % nt < nt := Nat.mod_lt _ h1
  have hco : nt * ((nP + nt - 1) / nt) = (nP + nt - 1) / nt * nt := Nat.mul_comm _ _
  omega

theorem foldl_max_isGreatest (f : ℕ → ℚ) (n : ℕ) (hn : 0 < n) (hf : ∀ k, 0 ≤ f k) :
    IsGreatest {x : ℚ | ∃ k < n, x = f k}
      ((List.range n).foldl (fun m k => max m (f k)) 0) := by
  induction n with
  | zero => omega
  | succ n ih =>
      rw [List.range_succ, List.foldl_append, List.foldl_cons, List.foldl_nil]
      rcases Nat.eq_zero_or_pos n with h0 | hpos
      · subst h0
        simp only [List.range_zero, List.foldl_nil]
        constructor
        · exact ⟨0, by omega, (max_eq_right (hf 0))⟩
        · rintro x ⟨k, hk, rfl⟩
          have hk0 : k = 0 := by omega
          subst hk0
          rw [max_eq_right (hf 0)]
      · obtain ⟨hmem, hub⟩ := ih hpos
        constructor
        · rcases le_total ((List.range n).foldl (fun m k => max m (f k)) 0) (f n) with h | h
          · rw [max_eq_right h]
            exact ⟨n, by omega, rfl⟩
          · rw [max_eq_left h]
            obtain ⟨k, hk, hx⟩ := hmem
            exact ⟨k, by omega, hx⟩
        · rintro x ⟨k, hk, rfl⟩
          rcases Nat.lt_succ_iff_lt_or_eq.mp hk with h | h
          · exact le_trans (hub ⟨k, h, rfl⟩) (le_max_left _ _)
          · subst h
            exact le_max_right _ _

theorem stEnvelope_length (pcm : List ℚ) (Sn Cn nP : ℕ) :
    (stEnvelope pcm Sn Cn nP).length = Cn := by
  simp [stEnvelope]

theorem stEnvelope_row (pcm : List ℚ) (Sn Cn nP c : ℕ) (hc : c < Cn) :
    (stEnvelope pcm Sn Cn nP).getD c []
      = (List.range nP).map fun pixel => processPixelChannel pcm Sn Cn pixel c := by
  unfold stEnvelope
  rw [List.getD_eq_getElem _ _ (by simp [hc]), List.getElem_map, List.getElem_range]

theorem stEnvelope_row_length (pcm : List ℚ) (Sn Cn nP c : ℕ) (hc : c < Cn) :
    ((stEnvelope pcm Sn Cn nP).getD c []).length = nP := by
  rw [stEnvelope_row pcm Sn Cn nP c hc]
  simp

theorem stEnvelope_entry (pcm : List ℚ) (Sn Cn nP c b : ℕ) (hc : c < Cn) (hb : b < nP) :
    ((stEnvelope pcm Sn Cn nP).getD c []).getD b 0 = processPixelChannel pcm Sn Cn b c := by
  rw [stEnvelope_row pcm Sn Cn nP c hc,
    List.getD_eq_getElem _ _ (by simp [hb]), List.getElem_map, List.getElem_range]

theorem mtWorker_false (pcm : List ℚ) (Sn Cn nP : ℕ) (endP p counter : ℕ) (f : ℕ × ℕ → ℚ) :
    mtWorker pcm Sn Cn nP (fun _ => false) endP p counter f =
      (counter + (endP - p),
       ((List.range' (counter + 1) (endP - p)).filter (mtCond nP)).map
         (fun q : ℕ => (q : ℚ) / (nP : ℚ)),
       fun cp => if cp.1 < Cn ∧ p ≤ cp.2 ∧ cp.2 < endP
                 then processPixelChannelMT pcm Sn Cn cp.2 cp.1 else f cp) := by
  rw [mtWorker]
  by_cases hlt : p < endP
  · rw [dif_pos hlt]
    simp only [Bool.and_false, Bool.false_eq_true, if_false]
    rw [mtWorker_false pcm Sn Cn nP endP (p + 1) (counter + 1) (writePixel pcm Sn Cn f p)]
    have hr : endP - p = (endP - (p + 1)) + 1 := by omega
    simp only [Prod.mk.injEq]
    refine ⟨by omega, ?_, ?_⟩
    · rw [hr, List.range'_succ, List.filter_cons]
      by_cases hc : mtCond nP (counter + 1)
      · rw [if_pos hc, if_pos hc, List.map_cons, List.singleton_append]
        congr 1
        push_cast
        ring
      · rw [if_neg hc, if_neg hc, List.nil_append]
    · funext cp
      rw [writePixel_apply]
      by_cases hin : cp.1 < Cn ∧ p ≤ cp.2 ∧ cp.2 < endP
      · rw [if_pos hin]
        by_cases h1 : p + 1 ≤ cp.2
        · rw [if_pos ⟨hin.1, h1, hin.2.2⟩]
        · rw [if_neg (by omega), if_pos ⟨hin.1, by omega⟩]
          have h2 : cp.2 = p := by omega
          rw [h2]
      · rw [if_neg hin, if_neg (by omega), if_neg (by omega)]
  · rw [dif_neg hlt]
    have hr : endP - p = 0 := by omega
    rw [hr]
    simp only [Prod.mk.injEq]
    refine ⟨by omega, by simp, ?_⟩
    funext cp
    rw [if_neg (by omega)]
termination_by endP - p

theorem mtRun_false (pcm : List ℚ) (Sn Cn nP ppt : ℕ) (nt : ℕ) :
    mtRun pcm Sn Cn nP nt ppt (fun _ => false) =
      (min (nt * ppt) nP,
       ((List.range' 1 (min (nt * ppt) nP)).filter (mtCond nP)).map
         (fun q : ℕ => (q : ℚ) / (nP : ℚ)),
       fun cp => if cp.1 < Cn ∧ cp.2 < min (nt * ppt) nP
                 then processPixelChannelMT pcm Sn Cn cp.2 cp.1 else 0) := by
  induction nt with
  | zero =>
      have h0 : min (0 * ppt) nP = 0 := by simp
      unfold mtRun
      rw [List.range_zero, List.foldl_nil, h0]
      simp only [List.range'_zero, List.filter_nil, List.map_nil, Prod.mk.injEq]
      refine ⟨trivial, trivial, ?_⟩
      funext cp
      rw [if_neg (by omega)]
  | succ n ih =>
      have step : mtRun pcm Sn Cn nP (n + 1) ppt (fun _ => false) =
          ((mtWorker pcm Sn Cn nP (fun _ => false) (min (n * ppt + ppt) nP) (n * ppt)
              (mtRun pcm Sn Cn nP n ppt (fun _ => false)).1
              (mtRun pcm Sn Cn nP n ppt (fun _ => false)).2.2).1,
           (mtRun pcm Sn Cn nP n ppt (fun _ => false)).2.1 ++
             (mtWorker pcm Sn Cn nP (fun _ => false) (min (n * ppt + ppt) nP) (n * ppt)
               (mtRun pcm Sn Cn nP n ppt (fun _ => false)).1
               (mtRun pcm Sn Cn nP n ppt (fun _ => false)).2.2).2.1,
           (mtWorker pcm Sn Cn nP (fun _ => false) (min (n * ppt + ppt) nP) (n * ppt)
             (mtRun pcm Sn Cn nP n ppt (fun _ => false)).1
             (mtRun pcm Sn Cn nP n ppt (fun _ => false)).2.2).2.2) := by
        conv_lhs => unfold mtRun
        rw [List.range_succ, List.foldl_append, List.foldl_cons, List.foldl_nil]
        rfl
      rw [step, ih, mtWorker_false]
      have hsm : (n + 1) * ppt = n * ppt + ppt := Nat.succ_mul n ppt
      dsimp only
      simp only [Prod.mk.injEq]
      refine ⟨by omega, ?_, ?_⟩
      · rcases le_or_lt (n * ppt) nP with hle | hgt
        · have hm : min (n * ppt) nP = n * ppt := min_eq_left hle
          rw [hm, ← List.map_append, ← List.filter_append]
          have happ := List.range'_append 1 (n * ppt) (min (n * ppt + ppt) nP - n * ppt) 1
          simp only [Nat.mul_one, Nat.one_mul] at happ
          have h1m : 1 + n * ppt = n * ppt + 1 := by omega
          rw [h1m] at happ
          rw [happ]
          have harg : min (n * ppt + ppt) nP - n * ppt + n * ppt = min ((n + 1) * ppt) nP := by
            omega
          rw [harg]
        · have hm : min (n * ppt) nP = nP := min_eq_right (by omega)
          have he : min (n * ppt + ppt) nP = nP := min_eq_right (by omega)
          rw [hm, he]
          have hz : nP - n * ppt = 0 := by omega
          rw [hz]
          simp only [List.range'_zero, List.filter_nil, List.map_nil, List.append_nil]
          have harg : min ((n + 1) * ppt) nP = nP := by omega
          rw [harg]
      · funext cp
        by_cases hc : cp.1 < Cn
        · by_cases hin : n * ppt ≤ cp.2 ∧ cp.2 < min (n * ppt + ppt) nP
          · rw [if_pos ⟨hc, hin.1, hin.2⟩, if_pos ⟨hc, by omega⟩]
          · rw [if_neg (by omega)]
            by_cases hprev : cp.2 < min (n * ppt) nP
            · rw [if_pos ⟨hc, hprev⟩, if_pos ⟨hc, by omega⟩]
            · rw [if_neg (by omega), if_neg (by omega)]
        · rw [if_neg (by omega), if_neg (by omega), if_neg (by omega)]

theorem processWaveformFull_env (pcm : List ℚ) (S C : ℤ) (hw : ℕ) :
    (processWaveformFull pcm S C hw (fun _ => false) false).1 =
      if pcm.length = 0 ∨ S ≤ 0 ∨ C ≤ 0 ∨ pcm.length / S.toNat / C.toNat = 0 then []
      else stEnvelope pcm S.toNat C.toNat (pcm.length / S.toNat / C.toNat) := by
  by_cases hg : pcm.length = 0 ∨ S ≤ 0 ∨ C ≤ 0
  · rw [if_pos (by tauto)]
    unfold processWaveformFull
    rw [if_pos hg]
  · by_cases hnp : pcm.length / S.toNat / C.toNat = 0
    · rw [if_pos (by tauto)]
      unfold processWaveformFull
      rw [if_neg hg, if_pos hnp]
    · rw [if_neg (by tauto)]
      unfold processWaveformFull
      rw [if_neg hg, if_neg hnp]
      by_cases hnt : min hw (pcm.length / S.toNat / C.toNat) ≤ 1
      · rw [if_pos hnt, stLoop_false]
        rfl
      · rw [if_neg hnt]
        simp only [Bool.false_eq_true, if_false, mtRun_false]
        have hS : 0 < S.toNat := by omega
        have hC : 0 < C.toNat := by omega
        have hcov : pcm.length / S.toNat / C.toNat ≤
            min hw (pcm.length / S.toNat / C.toNat) *
              ((pcm.length / S.toNat / C.toNat + min hw (pcm.length / S.toNat / C.toNat) - 1) /
                min hw (pcm.length / S.toNat / C.toNat)) := by
          have h1 : 0 < min hw (pcm.length / S.toNat / C.toNat) := by omega
          have h2 := ceil_mul_ge (pcm.length / S.toNat / C.toNat)
            (min hw (pcm.length / S.toNat / C.toNat)) h1
          have h3 : (pcm.length / S.toNat / C.toNat + min hw (pcm.length / S.toNat / C.toNat) - 1) /
              min hw (pcm.length / S.toNat / C.toNat) *
              min hw (pcm.length / S.toNat / C.toNat) =
              min hw (pcm.length / S.toNat / C.toNat) *
              ((pcm.length / S.toNat / C.toNat + min hw (pcm.length / S.toNat / C.toNat) - 1) /
               min hw (pcm.length / S.toNat / C.toNat)) := Nat.mul_comm _ _
          omega
        unfold stEnvelope
        apply List.map_congr_left
        intro c hc
        apply List.map_congr_left
        intro b hb
        rw [List.mem_range] at hc hb
        rw [if_pos ⟨hc, by omega⟩]
        exact processPixelChannelMT_eq pcm S.toNat C.toNat b c hS hC hb hc

theorem processWaveformFull_flagEnd (pcm : List ℚ) (S C : ℤ) (hw : ℕ) (flag : ℕ → Bool)
    (h : 1 < min hw (pcm.length / S.toNat / C.toNat)) :
    (processWaveformFull pcm S C hw flag true).1 = [] := by
  unfold processWaveformFull
  by_cases hg : pcm.length = 0 ∨ S ≤ 0 ∨ C ≤ 0
  · rw [if_pos hg]
  · rw [if_neg hg]
    by_cases hnp : pcm.length / S.toNat / C.toNat = 0
    · rw [if_pos hnp]
    · rw [if_neg hnp, if_neg (by omega)]
      rfl

theorem processWaveformFull_st_cancelled (pcm : List ℚ) (S C : ℤ) (hw : ℕ)
    (flag : ℕ → Bool) (flagEnd : Bool)
    (hst : min hw (pcm.length / S.toNat / C.toNat) ≤ 1)
    (hobs : ∃ p, p < pcm.length / S.toNat / C.toNat ∧ pollAt p = true ∧ flag p = true) :
    (processWaveformFull pcm S C hw flag flagEnd).1 = [] := by
  unfold processWaveformFull
  by_cases hg : pcm.length = 0 ∨ S ≤ 0 ∨ C ≤ 0
  · rw [if_pos hg]
  · rw [if_neg hg]
    by_cases hnp : pcm.length / S.toNat / C.toNat = 0
    · rw [if_pos hnp]
    · rw [if_neg hnp, if_pos hst]
      obtain ⟨q, hq, hpoll, hflag⟩ := hobs
      have hcan : (stLoop (pcm.length / S.toNat / C.toNat) flag 0).1 = true :=
        stLoop_cancelled _ flag 0 ⟨q, Nat.zero_le q, hq, hpoll, hflag⟩
      rw [if_pos hcan]

theorem mem_filtered_map (a n : ℕ) (cond : ℕ → Bool) (v : ℕ → ℚ) (x : ℚ)
    (hx : x ∈ ((List.range' a n).filter cond).map v) :
    ∃ p, a ≤ p ∧ p < a + n ∧ x = v p := by
  obtain ⟨p, hp, rfl⟩ := List.mem_map.mp hx
  have hp2 := (List.mem_filter.mp hp).1
  rw [List.mem_range'_1] at hp2
  exact ⟨p, hp2.1, hp2.2, rfl⟩

theorem filtered_mono_chain (a n : ℕ) (cond : ℕ → Bool) (v : ℕ → ℚ)
    (hv : ∀ p q : ℕ, p ≤ q → v p ≤ v q) :
    (((List.range' a n).filter cond).map v).Chain' (· ≤ ·) := by
  have h1 : (List.range' a n).Pairwise (· < ·) := List.pairwise_lt_range' a n
  have h2 : ((List.range' a n).filter cond).Pairwise (· < ·) :=
    List.Pairwise.sublist (List.filter_sublist _) h1
  have h3 : ((List.range' a n).filter cond).Pairwise (fun p q => v p ≤ v q) :=
    h2.imp fun h => hv _ _ (le_of_lt h)
  exact List.Pairwise.chain' (List.pairwise_map.mpr h3)

theorem chain_bounds_append_one (l : List ℚ) (hc : l.Chain' (· ≤ ·))
    (hb : ∀ x ∈ l, 0 ≤ x ∧ x ≤ 1) :
    (l ++ [1]).Chain' (· ≤ ·) ∧ (∀ x ∈ l ++ [1], 0 ≤ x ∧ x ≤ 1) ∧
      (l ++ [(1 : ℚ)]).getLast? = some 1 := by
  refine ⟨?_, ?_, by rw [List.getLast?_concat]⟩
  · rw [List.chain'_append]
    refine ⟨hc, List.chain'_singleton 1, ?_⟩
    intro x hx y hy
    have hy1 : y = 1 := by simpa using hy.symm
    subst hy1
    obtain ⟨hne, hxl⟩ := List.mem_getLast?_eq_getLast hx
    have hmem : x ∈ l := hxl ▸ List.getLast_mem hne
    exact (hb x hmem).2
  · intro x hx
    rcases List.mem_append.mp hx with h | h
    · exact hb x h
    · have hx1 : x = 1 := by simpa using h
      subst hx1
      exact ⟨by norm_num, le_refl 1⟩

theorem seq_with_final_props (a n nP : ℕ) (cond : ℕ → Bool) (v : ℕ → ℚ)
    (hmono : ∀ p q : ℕ, p ≤ q → v p ≤ v q)
    (hbnd : ∀ p, a ≤ p → p < a + n → 0 ≤ v p ∧ v p ≤ 1)
    (hnp : (nP : ℚ) ≠ 0) :
    ((((List.range' a n).filter cond).map v) ++ [(nP : ℚ) / (nP : ℚ)]).Chain' (· ≤ ·) ∧
      (∀ x ∈ (((List.range' a n).filter cond).map v) ++ [(nP : ℚ) / (nP : ℚ)],
        0 ≤ x ∧ x ≤ 1) ∧
      ((((List.range' a n).filter cond).map v) ++ [(nP : ℚ) / (nP : ℚ)]).getLast?
        = some 1 := by
  have hone : (nP : ℚ) / (nP : ℚ) = 1 := div_self hnp
  rw [hone]
  have hchain := filtered_mono_chain a n cond v hmono
  have hb : ∀ x ∈ ((List.range' a n).filter cond).map v, 0 ≤ x ∧ x ≤ 1 := by
    intro x hx
    obtain ⟨p, hp1, hp2, rfl⟩ := mem_filtered_map a n cond v x hx
    exact hbnd p hp1 hp2
  exact chain_bounds_append_one _ hchain hb

theorem procSeq_props (pcm : List ℚ) (S C : ℤ) (hw : ℕ) :
    ((processWaveformFull pcm S C hw (fun _ => false) false).2).Chain' (· ≤ ·) ∧
      ∀ x ∈ (processWaveformFull pcm S C hw (fun _ => false) false).2, 0 ≤ x ∧ x ≤ 1 := by
  unfold processWaveformFull
  by_cases hg : pcm.length = 0 ∨ S ≤ 0 ∨ C ≤ 0
  · rw [if_pos hg]
    exact ⟨List.chain'_nil, by simp⟩
  · rw [if_neg hg]
    by_cases hnp : pcm.length / S.toNat / C.toNat = 0
    · rw [if_pos hnp]
      exact ⟨List.chain'_nil, by simp⟩
    · rw [if_neg hnp]
      have hnpQ : ((pcm.length / S.toNat / C.toNat : ℕ) : ℚ) ≠ 0 := by
        rw [Nat.cast_ne_zero]
        exact hnp
      have hnpPos : (0 : ℚ) < ((pcm.length / S.toNat / C.toNat : ℕ) : ℚ) := by
        exact_mod_cast Nat.pos_of_ne_zero hnp
      by_cases hnt : min hw (pcm.length / S.toNat / C.toNat) ≤ 1
      · rw [if_pos hnt, stLoop_false]
        simp only [Bool.false_eq_true, if_false, Nat.sub_zero]
        have h := seq_with_final_props 0 (pcm.length / S.toNat / C.toNat)
          (pcm.length / S.toNat / C.toNat) (stCond (pcm.length / S.toNat / C.toNat))
          (fun q : ℕ => ((q : ℚ) + 1) / ((pcm.length / S.toNat / C.toNat : ℕ) : ℚ))
          (fun p q hpq => by
            have hpq2 : (p : ℚ) ≤ (q : ℚ) := by exact_mod_cast hpq
            exact div_le_div_of_nonneg_right (by linarith) hnpPos.le)
          (fun p hp1 hp2 => by
            constructor
            · positivity
            · rw [div_le_one hnpPos]
              have hle : (((p + 1 : ℕ)) : ℚ) ≤ ((pcm.length / S.toNat / C.toNat : ℕ) : ℚ) := by
                exact_mod_cast Nat.cast_le.mpr (by omega : p + 1 ≤ pcm.length / S.toNat / C.toNat)
              push_cast at hle
              linarith)
          hnpQ
        exact ⟨h.1, h.2.1⟩
      · rw [if_neg hnt]
        simp only [Bool.false_eq_true, if_false, mtRun_false]
        have h := seq_with_final_props 1
          (min (min hw (pcm.length / S.toNat / C.toNat) *
            ((pcm.length / S.toNat / C.toNat + min hw (pcm.length / S.toNat / C.toNat) - 1) /
              min hw (pcm.length / S.toNat / C.toNat))) (pcm.length / S.toNat / C.toNat))
          (pcm.length / S.toNat / C.toNat) (mtCond (pcm.length / S.toNat / C.toNat))
          (fun q : ℕ => (q : ℚ) / ((pcm.length / S.toNat / C.toNat : ℕ) : ℚ))
          (fun p q hpq => by
            have hpq2 : (p : ℚ) ≤ (q : ℚ) := by exact_mod_cast hpq
            exact div_le_div_of_nonneg_right hpq2 hnpPos.le)
          (fun p hp1 hp2 => by
            constructor
            · positivity
            · rw [div_le_one hnpPos]
              have hle : p ≤ pcm.length / S.toNat / C.toNat := by omega
              exact_mod_cast Nat.cast_le.mpr hle)
          hnpQ
        exact ⟨h.1, h.2.1⟩

theorem le_condFoldl (l : List ℚ) (t a : ℚ) :
    a ≤ l.foldl (fun m s => if t ≤ |s| then max m |s| else m) a := by
  induction l generalizing a with
  | nil => exact le_refl a
  | cons x xs ih =>
      simp only [List.foldl_cons]
      by_cases h : t ≤ |x|
      · rw [if_pos h]
        exact le_trans (le_max_left _ _) (ih _)
      · rw [if_neg h]
        exact ih a

theorem maxAboveThreshold_nonneg (l : List ℚ) (t : ℚ) : 0 ≤ maxAboveThreshold l t :=
  le_condFoldl l t 0

theorem condFoldl_mono (l : List ℚ) (t : ℚ) (a b : ℚ) (hab : a ≤ b) :
    l.foldl (fun m s => if t ≤ |s| then max m |s| else m) a
      ≤ l.foldl (fun m s => if t ≤ |s| then max m |s| else m) b := by
  induction l generalizing a b with
  | nil => exact hab
  | cons x xs ih =>
      simp only [List.foldl_cons]
      by_cases h : t ≤ |x|
      · rw [if_pos h, if_pos h]
        exact ih _ _ (max_le_max hab (le_refl _))
      · rw [if_neg h, if_neg h]
        exact ih _ _ hab

theorem mem_le_maxAboveThreshold (l : List ℚ) (t : ℚ) (s : ℚ) (hs : s ∈ l) (ht : t ≤ |s|) :
    |s| ≤ maxAboveThreshold l t := by
  unfold maxAboveThreshold
  induction l with
  | nil => simp at hs
  | cons x xs ih =>
      simp only [List.foldl_cons]
      rcases List.mem_cons.mp hs with h | h
      · subst h
        rw [if_pos ht]
        exact le_trans (le_max_right 0 |s|) (le_condFoldl xs t _)
      · calc |s| ≤ xs.foldl (fun m s => if t ≤ |s| then max m |s| else m) 0 := ih h
          _ ≤ xs.foldl (fun m s => if t ≤ |s| then max m |s| else m)
                (if t ≤ |x| then max 0 |x| else 0) := by
              apply condFoldl_mono
              by_cases hx : t ≤ |x|
              · rw [if_pos hx]
                exact le_max_left 0 |x|
              · rw [if_neg hx]
          _ = xs.foldl (fun m s => if t ≤ |s| then max m |s| else m)
                ((fun m s => if t ≤ |s| then max m |s| else m) 0 x) := rfl

theorem normalizeChannel_length (ch : List ℚ) (scale t : ℚ) :
    (normalizeChannel ch scale t).length = ch.length := by
  unfold normalizeChannel
  by_cases he : ch.isEmpty
  · rw [if_pos he, List.isEmpty_iff.mp he]
  · rw [if_neg he]
    by_cases hM : 0 < maxAboveThreshold ch t
    · rw [if_pos hM, List.length_map]
    · rw [if_neg hM, List.length_replicate]

theorem normalizeChannel_entry (ch : List ℚ) (scale t : ℚ) (i : ℕ) (hi : i < ch.length) :
    (normalizeChannel ch scale t).getD i 0 =
      if |ch.getD i 0| < t then 0
      else ch.getD i 0 / maxAboveThreshold ch t * scale := by
  unfold normalizeChannel
  by_cases he : ch.isEmpty
  · rw [List.isEmpty_iff.mp he] at hi
    simp at hi
  · rw [if_neg he]
    by_cases hM : 0 < maxAboveThreshold ch t
    · rw [if_pos hM]
      rw [List.getD_eq_getElem _ _ (by simpa using hi), List.getElem_map,
        List.getD_eq_getElem _ _ hi]
    · rw [if_neg hM]
      have hM0 : maxAboveThreshold ch t = 0 :=
        le_antisymm (by linarith) (maxAboveThreshold_nonneg ch t)
      rw [List.getD_eq_getElem _ _ (by simpa using hi), List.getElem_replicate]
      by_cases hb : |ch.getD i 0| < t
      · rw [if_pos hb]
      · rw [if_neg hb]
        have hmem : ch.getD i 0 ∈ ch := by
          rw [List.getD_eq_getElem _ _ hi]
          exact List.getElem_mem hi
        have hle : |ch.getD i 0| ≤ maxAboveThreshold ch t :=
          mem_le_maxAboveThreshold ch t _ hmem (by linarith)
        have hz : ch.getD i 0 = 0 := by
          rw [hM0] at hle
          exact abs_eq_zero.mp (le_antisymm hle (abs_nonneg _))
        rw [hz, hM0]
        simp

theorem normalizeChannel_bounds (ch : List ℚ) (scale t : ℚ) (i : ℕ)
    (hscale : 0 ≤ scale) (hi : i < ch.length) :
    -scale ≤ (normalizeChannel ch scale t).getD i 0 ∧
      (normalizeChannel ch scale t).getD i 0 ≤ scale := by
  rw [normalizeChannel_entry ch scale t i hi]
  by_cases hb : |ch.getD i 0| < t
  · rw [if_pos hb]
    constructor <;> linarith
  · rw [if_neg hb]
    have habs : |ch.getD i 0 / maxAboveThreshold ch t * scale| ≤ scale := by
      rw [abs_mul, abs_div]
      have hM := maxAboveThreshold_nonneg ch t
      have hmem : ch.getD i 0 ∈ ch := by
        rw [List.getD_eq_getElem _ _ hi]
        exact List.getElem_mem hi
      have hle : |ch.getD i 0| ≤ maxAboveThreshold ch t :=
        mem_le_maxAboveThreshold ch t _ hmem (by linarith)
      rcases eq_or_lt_of_le hM with hM0 | hMpos
      · have hz : |ch.getD i 0| = 0 :=
          le_antisymm (by rw [← hM0] at hle; exact hle) (abs_nonneg _)
        rw [hz, zero_div, zero_mul]
        exact hscale
      · rw [abs_of_pos hMpos, abs_of_nonneg hscale]
        have h2 : |ch.getD i 0| / maxAboveThreshold ch t ≤ 1 := (div_le_one hMpos).mpr hle
        calc |ch.getD i 0| / maxAboveThreshold ch t * scale
            ≤ 1 * scale := mul_le_mul_of_nonneg_right h2 hscale
          _ = scale := one_mul scale
    exact abs_le.mp habs

theorem normalizeWaveform_row (data : List (List ℚ)) (scale t : ℚ) (c : ℕ)
    (hc : c < data.length) :
    (normalizeWaveform data scale t).getD c [] = normalizeChannel (data.getD c []) scale t := by
  have hnw : normalizeWaveform data scale t
      = data.map fun ch => normalizeChannel ch scale t := by
    unfold normalizeWaveform
    by_cases h : data.isEmpty
    · rw [if_pos h, List.isEmpty_iff.mp h]
      rfl
    · rw [if_neg h]
  rw [hnw, List.getD_eq_getElem _ _ (by simpa using hc), List.getElem_map,
    List.getD_eq_getElem _ _ hc]

theorem normalizeWaveform_length (data : List (List ℚ)) (scale t : ℚ) :
    (normalizeWaveform data scale t).length = data.length := by
  unfold normalizeWaveform
  by_cases h : data.isEmpty
  · rw [if_pos h, List.isEmpty_iff.mp h]
  · rw [if_neg h, List.length_map]

/-- C1: `processWaveform(pcm, S, C)` returns the empty envelope when
    `len(pcm) = 0`, `S ≤ 0`, `C ≤ 0` or `B = ⌊len(pcm)/(S·C)⌋ = 0`;
    otherwise it returns exactly `C` channels of `B` buckets each, where
    `env[c][b]` is the maximum over `k < S` of `|pcm[b·S·C + k·C + c]|`,
    and the trailing `len(pcm) − B·S·C` remainder samples never
    influence any output value. -/
theorem processWaveform_envelope_spec (pcm : List ℚ) (S C : ℤ) (hw : ℕ) :
    ((pcm.length = 0 ∨ S ≤ 0 ∨ C ≤ 0 ∨ pcm.length / (S.toNat * C.toNat) = 0) →
      (processWaveformFull pcm S C hw (fun _ => false) false).1 = [])
    ∧ (pcm.length ≠ 0 → 0 < S → 0 < C → pcm.length / (S.toNat * C.toNat) ≠ 0 →
      (processWaveformFull pcm S C hw (fun _ => false) false).1.length = C.toNat
      ∧ (∀ c < C.toNat,
          ((processWaveformFull pcm S C hw (fun _ => false) false).1.getD c []).length
            = pcm.length / (S.toNat * C.toNat))
      ∧ (∀ c < C.toNat, ∀ b < pcm.length / (S.toNat * C.toNat),
          IsGreatest
            {x : ℚ | ∃ k < S.toNat,
              x = |pcm.getD (b * S.toNat * C.toNat + k * C.toNat + c) 0|}
            (((processWaveformFull pcm S C hw (fun _ => false) false).1.getD c []).getD b 0))
      ∧ (∀ pcm' : List ℚ, pcm'.length = pcm.length →
          (∀ i < pcm.length / (S.toNat * C.toNat) * S.toNat * C.toNat,
            pcm'.getD i 0 = pcm.getD i 0) →
          (processWaveformFull pcm' S C hw (fun _ => false) false).1
            = (processWaveformFull pcm S C hw (fun _ => false) false).1)) := by
  have hdd : pcm.length / S.toNat / C.toNat = pcm.length / (S.toNat * C.toNat) :=
    Nat.div_div_eq_div_mul _ _ _
  constructor
  · intro h
    rw [processWaveformFull_env, if_pos (by rw [hdd]; exact h)]
  · intro h1 h2 h3 h4
    have hS : 0 < S.toNat := by omega
    have hC : 0 < C.toNat := by omega
    have hB : pcm.length / S.toNat / C.toNat ≠ 0 := by rw [hdd]; exact h4
    have hcond : ¬(pcm.length = 0 ∨ S ≤ 0 ∨ C ≤ 0 ∨ pcm.length / S.toNat / C.toNat = 0) := by
      push_neg
      exact ⟨h1, by omega, by omega, hB⟩
    have henv : (processWaveformFull pcm S C hw (fun _ => false) false).1
        = stEnvelope pcm S.toNat C.toNat (pcm.length / S.toNat / C.toNat) := by
      rw [processWaveformFull_env, if_neg hcond]
    refine ⟨?_, ?_, ?_, ?_⟩
    · rw [henv, stEnvelope_length]
    · intro c hc
      rw [henv, stEnvelope_row_length _ _ _ _ _ hc, hdd]
    · intro c hc b hb
      rw [henv, stEnvelope_entry _ _ _ _ _ _ hc (by rw [hdd]; exact hb),
        processPixelChannel_eq_fold pcm S.toNat C.toNat b c hS hC (by rw [hdd]; exact hb) hc]
      exact foldl_max_isGreatest
        (fun k => |pcm.getD (b * S.toNat * C.toNat + k * C.toNat + c) 0|)
        S.toNat hS (fun k => abs_nonneg _)
    · intro pcm' hlen hagree
      rw [henv, processWaveformFull_env, hlen, if_neg hcond]
      unfold stEnvelope
      apply List.map_congr_left
      intro c hcmem
      apply List.map_congr_left
      intro b hbmem
      rw [List.mem_range] at hcmem hbmem
      rw [processPixelChannel_eq_fold pcm' S.toNat C.toNat b c hS hC
            (by rw [hlen]; exact hbmem) hcmem,
          processPixelChannel_eq_fold pcm S.toNat C.toNat b c hS hC hbmem hcmem]
      apply List.foldl_ext
      intro m k hk
      rw [hagree (b * S.toNat * C.toNat + k * C.toNat + c) ?_]
      have hk2 : k < S.toNat := List.mem_range.mp hk
      have hb2 : b + 1 ≤ pcm.length / S.toNat / C.toNat := hbmem
      have e1 : (b + 1) * S.toNat * C.toNat
          ≤ pcm.length / S.toNat / C.toNat * S.toNat * C.toNat := by
        apply Nat.mul_le_mul_right
        exact Nat.mul_le_mul_right _ hb2
      have e2 : (b + 1) * S.toNat * C.toNat = b * S.toNat * C.toNat + S.toNat * C.toNat := by
        ring
      have e3 : k * C.toNat + C.toNat ≤ S.toNat * C.toNat := by
        have : (k + 1) * C.toNat ≤ S.toNat * C.toNat := Nat.mul_le_mul_right _ (by omega)
        have e4 : (k + 1) * C.toNat = k * C.toNat + C.toNat := by ring
        omega
      have e5 : pcm.length / S.toNat / C.toNat * S.toNat * C.toNat
          = pcm.length / (S.toNat * C.toNat) * S.toNat * C.toNat := by rw [hdd]
      omega

/-- C1 witness: the mono scenario `pcm = [0.1, −0.9, 0.3, −0.2, 0.8, −0.4]`,
    `S = 2`, `C = 1` yields an envelope of one channel. -/
theorem processWaveform_envelope_spec_witness :
    ([(1 : ℚ)/10, -9/10, 3/10, -1/5, 4/5, -2/5].length ≠ 0)
    ∧ (processWaveformFull [(1 : ℚ)/10, -9/10, 3/10, -1/5, 4/5, -2/5] 2 1 1
        (fun _ => false) false).1.length = (1 : ℤ).toNat :=
  ⟨by decide,
   ((processWaveform_envelope_spec [(1 : ℚ)/10, -9/10, 3/10, -1/5, 4/5, -2/5] 2 1 1).2
     (by decide) (by decide) (by decide) (by decide)).1⟩

/-- C2: `normalizeWaveform(env, scale, t)` preserves the shape; per
    channel, with `M` the maximum of `|s|` over the samples with
    `|s| ≥ t`, samples with `|s| < t` map to exactly `0` and the others
    to `(s / M) · scale`; a channel with `M = 0` becomes all zeros;
    empty channels pass through unchanged; and for `scale ≥ 0` every
    output lies in `[−scale, scale]`. -/
theorem normalizeWaveform_spec (data : List (List ℚ)) (scale threshold : ℚ) :
    (normalizeWaveform data scale threshold).length = data.length
    ∧ (∀ c < data.length,
        ((normalizeWaveform data scale threshold).getD c []).length
          = (data.getD c []).length)
    ∧ (∀ c < data.length, ∀ i < (data.getD c []).length,
        ((normalizeWaveform data scale threshold).getD c []).getD i 0 =
          if |(data.getD c []).getD i 0| < threshold then 0
          else (data.getD c []).getD i 0
            / maxAboveThreshold (data.getD c []) threshold * scale)
    ∧ (∀ c < data.length, maxAboveThreshold (data.getD c []) threshold = 0 →
        ∀ i < (data.getD c []).length,
          ((normalizeWaveform data scale threshold).getD c []).getD i 0 = 0)
    ∧ (∀ c < data.length, data.getD c [] = [] →
        (normalizeWaveform data scale threshold).getD c [] = [])
    ∧ (0 ≤ scale → ∀ c < data.length, ∀ i < (data.getD c []).length,
        -scale ≤ ((normalizeWaveform data scale threshold).getD c []).getD i 0
          ∧ ((normalizeWaveform data scale threshold).getD c []).getD i 0 ≤ scale) := by
  refine ⟨normalizeWaveform_length data scale threshold, ?_, ?_, ?_, ?_, ?_⟩
  · intro c hc
    rw [normalizeWaveform_row data scale threshold c hc, normalizeChannel_length]
  · intro c hc i hi
    rw [normalizeWaveform_row data scale threshold c hc, normalizeChannel_entry _ _ _ _ hi]
  · intro c hc hM0 i hi
    rw [normalizeWaveform_row data scale threshold c hc, normalizeChannel_entry _ _ _ _ hi]
    by_cases hb : |(data.getD c []).getD i 0| < threshold
    · rw [if_pos hb]
    · rw [if_neg hb]
      have hmem : (data.getD c []).getD i 0 ∈ data.getD c [] := by
        rw [List.getD_eq_getElem _ _ hi]
        exact List.getElem_mem hi
      have hle := mem_le_maxAboveThreshold (data.getD c []) threshold _ hmem (by linarith)
      rw [hM0] at hle
      have hz : (data.getD c []).getD i 0 = 0 :=
        abs_eq_zero.mp (le_antisymm hle (abs_nonneg _))
      rw [hz, hM0]
      simp
  · intro c hc hempty
    rw [normalizeWaveform_row data scale threshold c hc, hempty]
    rfl
  · intro hscale c hc i hi
    rw [normalizeWaveform_row data scale threshold c hc]
    exact normalizeChannel_bounds _ scale threshold i hscale hi

/-- C2 witness: the threshold-zeroing scenario
    `env = [[0.05, 0.5, 0.9]]`, `scale = 1`, `threshold = 0.1`:
    the middle output equals `(0.5 / 0.9) · 1`. -/
theorem normalizeWaveform_spec_witness :
    (0 : ℚ) ≤ 1
    ∧ ((normalizeWaveform [[(1 : ℚ)/20, 1/2, 9/10]] 1 (1/10)).getD 0 []).getD 1 0 =
        (if |([[(1 : ℚ)/20, 1/2, 9/10]].getD 0 []).getD 1 0| < 1/10 then 0
         else ([[(1 : ℚ)/20, 1/2, 9/10]].getD 0 []).getD 1 0
           / maxAboveThreshold ([[(1 : ℚ)/20, 1/2, 9/10]].getD 0 []) (1/10) * 1) :=
  ⟨by norm_num,
   (normalizeWaveform_spec [[(1 : ℚ)/20, 1/2, 9/10]] 1 (1/10)).2.2.1 0 (by decide) 1 (by decide)⟩

/-- C3: without cancellation, the envelope returned by `processWaveform`
    does not depend on the worker count: the multi-threaded partitioned
    path (with the four-lane SIMD reduction for mono) is bit-identical
    to the single-threaded scalar path (`hw' = 1`). -/
theorem processWaveform_worker_count_independent (pcm : List ℚ) (S C : ℤ) (hw hw' : ℕ) :
    (processWaveformFull pcm S C hw (fun _ => false) false).1
      = (processWaveformFull pcm S C hw' (fun _ => false) false).1 := by
  rw [processWaveformFull_env, processWaveformFull_env]

/-- C4: `processWaveform` polls the cancellation flag at buckets that
    are multiples of 100, so every bucket is within 100 buckets of a
    poll; on the single-threaded path, observing the flag set at any
    occurring poll makes it return the empty envelope; on the
    multi-threaded path, the final check (which runs after every worker
    poll, so it reads `true` whenever any worker observed the
    monotonically-set flag) makes it return the empty envelope: a
    partially filled envelope is never returned from a cancelled call. -/
theorem processWaveform_cancellation_spec (pcm : List ℚ) (S C : ℤ) (hw : ℕ)
    (flag : ℕ → Bool) (flagEnd : Bool) :
    (∀ p : ℕ, ∃ q : ℕ, q ≤ p ∧ p < q + 100 ∧ pollAt q = true)
    ∧ (min hw (pcm.length / S.toNat / C.toNat) ≤ 1 →
        (∃ p < pcm.length / S.toNat / C.toNat, pollAt p = true ∧ flag p = true) →
        (processWaveformFull pcm S C hw flag flagEnd).1 = [])
    ∧ (flagEnd = true → 1 < min hw (pcm.length / S.toNat / C.toNat) →
        (processWaveformFull pcm S C hw flag flagEnd).1 = []) := by
  refine ⟨?_, ?_, ?_⟩
  · intro p
    refine ⟨p - p % 100, by omega, by omega, ?_⟩
    simp only [pollAt, beq_iff_eq]
    omega
  · intro hst hobs
    obtain ⟨p, hp, hpoll, hflag⟩ := hobs
    exact processWaveformFull_st_cancelled pcm S C hw flag flagEnd hst ⟨p, hp, hpoll, hflag⟩
  · intro hEnd hmt
    subst hEnd
    exact processWaveformFull_flagEnd pcm S C hw flag hmt

/-- C4 witness: a 200-sample mono buffer with the flag set from the
    start is cancelled at the first poll and yields the empty
    envelope. -/
theorem processWaveform_cancellation_spec_witness :
    min 1 ((List.replicate 200 (0 : ℚ)).length / (1 : ℤ).toNat / (1 : ℤ).toNat) ≤ 1
    ∧ (processWaveformFull (List.replicate 200 (0 : ℚ)) 1 1 1 (fun _ => true) false).1 = [] :=
  ⟨by simp only [List.length_replicate, Int.toNat_one]; omega,
   (processWaveform_cancellation_spec (List.replicate 200 (0 : ℚ)) 1 1 1
       (fun _ => true) false).2.1 (by simp only [List.length_replicate, Int.toNat_one]; omega)
     ⟨0, by simp only [List.length_replicate, Int.toNat_one]; omega, rfl, rfl⟩⟩

end WaveformProcessor

namespace WaveformExtractor

open WaveformProcessor

theorem sandwich_props (m : List ℚ) (hm : m.Chain' (· ≤ ·))
    (hb : ∀ x ∈ m, 1/2 ≤ x ∧ x ≤ 4/5) :
    ((([1/10, 1/2] : List ℚ) ++ m ++ [4/5, 1]).Chain' (· ≤ ·))
    ∧ (∀ x ∈ (([1/10, 1/2] : List ℚ) ++ m ++ [4/5, 1]), 0 ≤ x ∧ x ≤ 1)
    ∧ (([1/10, 1/2] : List ℚ) ++ m ++ [4/5, 1]).getLast? = some 1 := by
  refine ⟨?_, ?_, ?_⟩
  · rw [List.append_assoc, List.chain'_append]
    refine ⟨by norm_num [List.chain'_cons, List.chain'_singleton], ?_, ?_⟩
    · rw [List.chain'_append]
      refine ⟨hm, by norm_num [List.chain'_cons, List.chain'_singleton], ?_⟩
      intro x hx y hy
      have hy45 : y = 4/5 := by
        simp only [List.head?_cons, Option.mem_def, Option.some.injEq] at hy
        exact hy.symm
      subst hy45
      obtain ⟨hne, hxl⟩ := List.mem_getLast?_eq_getLast hx
      have hmem : x ∈ m := hxl ▸ List.getLast_mem hne
      exact (hb x hmem).2
    · intro x hx y hy
      have hx12 : x = 1/2 := by
        simp only [List.getLast?_cons_cons, List.getLast?_singleton, Option.mem_def,
          Option.some.injEq] at hx
        exact hx.symm
      subst hx12
      rcases m with _ | ⟨z, zs⟩
      · simp only [List.nil_append, List.head?_cons, Option.mem_def, Option.some.injEq] at hy
        rw [← hy]
        norm_num
      · simp only [List.cons_append, List.head?_cons, Option.mem_def, Option.some.injEq] at hy
        rw [← hy]
        exact (hb z (List.mem_cons_self z zs)).1
  · intro x hx
    rw [List.append_assoc] at hx
    rcases List.mem_append.mp hx with h | h
    · simp only [List.mem_cons, List.not_mem_nil, or_false] at h
      rcases h with h | h <;> subst h <;> norm_num
    · rcases List.mem_append.mp h with h2 | h2
      · obtain ⟨hlo, hhi⟩ := hb x h2
        constructor <;> linarith
      · simp only [List.mem_cons, List.not_mem_nil, or_false] at h2
        rcases h2 with h2 | h2 <;> subst h2 <;> norm_num
  · rw [show (([1/10, 1/2] : List ℚ) ++ m ++ [4/5, 1])
        = (([1/10, 1/2] : List ℚ) ++ m ++ [4/5]) ++ [1] by simp [List.append_assoc]]
    rw [List.getLast?_concat]

/-- C5: if `extract` observes the cancellation flag at any of its four
    checkpoints (before decode, after decode, after processing, after
    normalization), the stored progress becomes `0.0` and the future
    resolves with an empty envelope — an `.ok` value, never an
    exception. -/
theorem extract_cancellation_spec (decode : String → Except String (List ℚ))
    (config : String) (hw : ℕ) (c1 c2 c3 c4 : Bool) (flag : ℕ → Bool) (flagEnd : Bool)
    (h : c1 = true ∨ (∃ pcm, decode config = .ok pcm
      ∧ (c2 = true ∨ c3 = true ∨ c4 = true))) :
    (extractModel decode config hw c1 c2 c3 c4 flag flagEnd).result = .ok []
    ∧ (extractModel decode config hw c1 c2 c3 c4 flag flagEnd).progress = 0 := by
  rcases h with h1 | ⟨pcm, hdec, h234⟩
  · subst h1
    unfold extractModel
    simp
  · unfold extractModel
    rw [hdec]
    cases c1
    · cases c2
      · cases c3
        · cases c4
          · simp at h234
          · simp
        · simp
      · simp
    · simp

/-- C5 witness: cancellation observed before decode yields the empty
    envelope and progress `0`. -/
theorem extract_cancellation_spec_witness :
    ((true : Bool) = true ∨ (∃ pcm,
        (fun _ : String => (Except.ok [] : Except String (List ℚ))) "cfg"
          = .ok pcm ∧ ((false : Bool) = true ∨ (false : Bool) = true ∨ (false : Bool) = true)))
    ∧ (extractModel (fun _ => (Except.ok [] : Except String (List ℚ))) "cfg" 1
        true false false false (fun _ => false) false).result = .ok []
    ∧ (extractModel (fun _ => (Except.ok [] : Except String (List ℚ))) "cfg" 1
        true false false false (fun _ => false) false).progress = 0 :=
  ⟨Or.inl rfl,
   (extract_cancellation_spec _ "cfg" 1 true false false false (fun _ => false) false
     (Or.inl rfl)).1,
   (extract_cancellation_spec _ "cfg" 1 true false false false (fun _ => false) false
     (Or.inl rfl)).2⟩

/-- C6 (amended): in an uncancelled, non-failing run of `extract`
    whose waveform processing takes the single-threaded path
    (`min(hardware_concurrency, numPixels) ≤ 1`), the progress
    callback receives exactly the phase schedule `0.1`, `0.5`, then
    `0.5 + 0.3·p` for each processor progress value `p`, then `0.8`,
    then `1.0`; the sequence is monotonically non-decreasing, every
    value lies in `[0, 1]`, and the final value is exactly `1.0`.
    (On the multi-threaded path the delivered order can invert, see
    the counterexample on `extractMTCallbacks`.) -/
theorem extract_progress_schedule_spec (decode : String → Except String (List ℚ))
    (config : String) (hw : ℕ) (pcm : List ℚ) (hdec : decode config = .ok pcm)
    (_hst : min hw (pcm.length / (100 : ℤ).toNat / (2 : ℤ).toNat) ≤ 1) :
    (extractModel decode config hw false false false false
        (fun _ => false) false).callbacks
      = [1/10, 1/2] ++ (processWaveformFull pcm 100 2 hw (fun _ => false) false).2.map
          (fun p => 1/2 + p * (3/10)) ++ [4/5, 1]
    ∧ (extractModel decode config hw false false false false
        (fun _ => false) false).callbacks.Chain' (· ≤ ·)
    ∧ (∀ x ∈ (extractModel decode config hw false false false false
        (fun _ => false) false).callbacks, 0 ≤ x ∧ x ≤ 1)
    ∧ (extractModel decode config hw false false false false
        (fun _ => false) false).callbacks.getLast? = some 1 := by
  have hbounds := (procSeq_props pcm 100 2 hw).2
  have hchain := (procSeq_props pcm 100 2 hw).1
  have hcb : (extractModel decode config hw false false false false
      (fun _ => false) false).callbacks
      = [1/10, 1/2] ++ (processWaveformFull pcm 100 2 hw (fun _ => false) false).2.map
          (fun p => 1/2 + p * (3/10)) ++ [4/5, 1] := by
    unfold extractModel
    rw [hdec]
    simp only [Bool.false_eq_true, if_false]
    have hmap : (processWaveformFull pcm 100 2 hw (fun _ => false) false).2.map
        (fun p => clampProgress (1/2 + p * (3/10)))
        = (processWaveformFull pcm 100 2 hw (fun _ => false) false).2.map
          (fun p => 1/2 + p * (3/10)) := by
      apply List.map_congr_left
      intro p hp
      obtain ⟨h0, h1⟩ := hbounds p hp
      unfold clampProgress
      rw [if_neg (by nlinarith), if_neg (by nlinarith)]
    simp only [hmap, List.append_assoc, List.cons_append, List.nil_append]
  have hmchain : ((processWaveformFull pcm 100 2 hw (fun _ => false) false).2.map
      (fun p => 1/2 + p * (3/10))).Chain' (· ≤ ·) := by
    rw [List.chain'_map]
    apply hchain.imp
    intro a b hab
    nlinarith
  have hmb : ∀ x ∈ (processWaveformFull pcm 100 2 hw (fun _ => false) false).2.map
      (fun p => 1/2 + p * (3/10)), 1/2 ≤ x ∧ x ≤ 4/5 := by
    intro x hx
    obtain ⟨p, hp, rfl⟩ := List.mem_map.mp hx
    obtain ⟨h0, h1⟩ := hbounds p hp
    constructor <;> nlinarith
  obtain ⟨hs1, hs2, hs3⟩ := sandwich_props _ hmchain hmb
  rw [hcb]
  exact ⟨rfl, hs1, hs2, hs3⟩

/-- C6 witness: an uncancelled single-threaded extraction on an empty
    decode result ends with the exact progress value `1`. -/
theorem extract_progress_schedule_spec_witness :
    ((fun _ : String => (Except.ok [] : Except String (List ℚ))) "cfg"
        = .ok ([] : List ℚ))
    ∧ min 1 (([] : List ℚ).length / (100 : ℤ).toNat / (2 : ℤ).toNat) ≤ 1
    ∧ (extractModel (fun _ => (Except.ok [] : Except String (List ℚ))) "cfg" 1
        false false false false (fun _ => false) false).callbacks.getLast? = some 1 :=
  ⟨rfl, min_le_left 1 _,
   (extract_progress_schedule_spec (fun _ => (Except.ok [] : Except String (List ℚ)))
     "cfg" 1 [] rfl (min_le_left 1 _)).2.2.2⟩

/-- C6 counterexample to the claim as stated: on the multi-threaded
    path with two buckets and two workers, the legal interleaving in
    which worker 0 fetches the counter first (`processed = 1`) but
    worker 1 fetches (`processed = 2`) and invokes the mutex-guarded
    callback before worker 0 does delivers `0.8` before `0.65`, so the
    sequence of values delivered to the progress callback of this
    uncancelled, non-failing run of `extract` is not monotonically
    non-decreasing. -/
theorem extract_mt_progress_not_monotone :
    ¬ (extractMTCallbacks 2 2 1 [0, 1, 1, 0]).Chain' (· ≤ ·) := by
  have h : mtDeliveredSeq 2 2 1 [0, 1, 1, 0] = [(2 : ℚ) / 2, (1 : ℚ) / 2] := by
    norm_num [mtDeliveredSeq, mtSchedStep, mtCond, Function.update]
  rw [extractMTCallbacks, h]
  simp only [List.map_cons, List.map_nil, List.cons_append, List.nil_append,
    List.chain'_cons, List.chain'_singleton, clampProgress]
  norm_num

/-- C9: the configuration string influences the outcome of `extract`
    only through `decodeAudioData`: the extraction parameters
    (`samplesPerPixel = 100`, `numChannels = 2`, `normalize = true`,
    `scale = 1.0`, `threshold = 0.0`) are hard-coded, so two configs
    with equal decode results yield identical envelopes, progress and
    callback sequences. -/
theorem extract_config_noninterference (decode : String → Except String (List ℚ))
    (cfg cfg' : String) (hw : ℕ) (c1 c2 c3 c4 : Bool) (flag : ℕ → Bool) (flagEnd : Bool)
    (h : decode cfg = decode cfg') :
    extractModel decode cfg hw c1 c2 c3 c4 flag flagEnd
      = extractModel decode cfg' hw c1 c2 c3 c4 flag flagEnd := by
  unfold extractModel
  rw [h]

/-- C9 witness: two distinct configs with the same decode result give
    the same extraction outcome. -/
theorem extract_config_noninterference_witness :
    ((fun _ : String => (Except.ok [] : Except String (List ℚ))) "a"
        = (fun _ : String => (Except.ok [] : Except String (List ℚ))) "b")
    ∧ extractModel (fun _ => (Except.ok [] : Except String (List ℚ))) "a" 1
        false false false false (fun _ => false) false
      = extractModel (fun _ => (Except.ok [] : Except String (List ℚ))) "b" 1
        false false false false (fun _ => false) false :=
  ⟨rfl,
   extract_config_noninterference (fun _ => (Except.ok [] : Except String (List ℚ)))
     "a" "b" 1 false false false false (fun _ => false) false rfl⟩

end WaveformExtractor

namespace AudioWaveformFactory

theorem playerStep_card_le (players : Finset String) (op : PlayerOp)
    (h : players.card ≤ MAX_PLAYERS) : (playerStep players op).card ≤ MAX_PLAYERS := by
  cases op with
  | create key =>
      simp only [playerStep, createPlayer]
      by_cases h1 : key ∈ players
      · rw [if_pos h1]
        exact h
      · rw [if_neg h1]
        by_cases h2 : MAX_PLAYERS ≤ players.card
        · rw [if_pos h2]
          exact h
        · rw [if_neg h2]
          calc (insert key players).card ≤ players.card + 1 := Finset.card_insert_le key players
            _ ≤ MAX_PLAYERS := by omega
  | remove key =>
      simp only [playerStep]
      exact le_trans Finset.card_erase_le h
  | stopAll =>
      simp [playerStep]

theorem player_ops_card_le (ops : List PlayerOp) : ∀ players : Finset String,
    players.card ≤ MAX_PLAYERS → (ops.foldl playerStep players).card ≤ MAX_PLAYERS := by
  induction ops with
  | nil =>
      intro players h
      exact h
  | cons op rest ih =>
      intro players h
      exact ih _ (playerStep_card_le players op h)

/-- C7 (amended): `createPlayer(key)` fails with capacity-exceeded
    whenever 30 players are already registered and `key` is not among
    them, and fails with duplicate-key whenever `key` is already
    registered (the duplicate check runs first, so a duplicate key at
    full capacity reports duplicate-key); in both failure cases the
    player map is unchanged, so starting from any map of at most 30
    players, no sequence of registry operations ever leaves more than
    30 entries. -/
theorem createPlayer_registry_spec (key : String) (players : Finset String) :
    (key ∉ players → 30 ≤ players.card →
      createPlayer key players = .error .capacityExceeded)
    ∧ (key ∈ players → createPlayer key players = .error .duplicateKey)
    ∧ ((key ∈ players ∨ 30 ≤ players.card) → playerStep players (.create key) = players)
    ∧ (players.card ≤ 30 → ∀ ops : List PlayerOp,
        (ops.foldl playerStep players).card ≤ 30) := by
  refine ⟨?_, ?_, ?_, ?_⟩
  · intro h1 h2
    unfold createPlayer
    rw [if_neg h1, if_pos (show MAX_PLAYERS ≤ players.card from h2)]
  · intro h1
    unfold createPlayer
    rw [if_pos h1]
  · intro h
    have herr : ∃ e, createPlayer key players = .error e := by
      unfold createPlayer
      by_cases h1 : key ∈ players
      · rw [if_pos h1]
        exact ⟨.duplicateKey, rfl⟩
      · rw [if_neg h1, if_pos (show MAX_PLAYERS ≤ players.card from by tauto)]
        exact ⟨.capacityExceeded, rfl⟩
    obtain ⟨e, he⟩ := herr
    simp only [playerStep]
    rw [he]
  · intro hcard ops
    exact player_ops_card_le ops players hcard

/-- C7 amended-claim witness: a duplicate key is rejected with
    duplicate-key and the map is unchanged. -/
theorem createPlayer_registry_spec_witness :
    ("a" ∈ ({"a"} : Finset String))
    ∧ createPlayer "a" ({"a"} : Finset String) = .error .duplicateKey :=
  ⟨by decide, (createPlayer_registry_spec "a" {"a"}).2.1 (by decide)⟩

/-- C7 counterexample to the claim as stated: with 30 players already
    registered, `createPlayer` of a key that is among them fails with
    duplicate-key, not with capacity-exceeded. -/
theorem createPlayer_capacity_counterexample :
    (["p00", "p01", "p02", "p03", "p04", "p05", "p06", "p07", "p08", "p09",
      "p10", "p11", "p12", "p13", "p14", "p15", "p16", "p17", "p18", "p19",
      "p20", "p21", "p22", "p23", "p24", "p25", "p26", "p27", "p28", "p29"].toFinset
        : Finset String).card = 30
    ∧ createPlayer "p00"
        (["p00", "p01", "p02", "p03", "p04", "p05", "p06", "p07", "p08", "p09",
          "p10", "p11", "p12", "p13", "p14", "p15", "p16", "p17", "p18", "p19",
          "p20", "p21", "p22", "p23", "p24", "p25", "p26", "p27", "p28", "p29"].toFinset)
        = .error .duplicateKey
    ∧ RegError.duplicateKey ≠ RegError.capacityExceeded := by
  refine ⟨by decide, ?_, by decide⟩
  unfold createPlayer
  rw [if_pos (by decide)]

theorem foldl_allStopped (l : List (String × PlayerModel)) (b : Bool) :
    l.foldl (fun allStopped kp =>
      if kp.2.isPlaying then allStopped && stopCleanly kp.2 else allStopped) b
      = (b && l.all fun kp => !kp.2.isPlaying || stopCleanly kp.2) := by
  induction l generalizing b with
  | nil => simp
  | cons x xs ih =>
      simp only [List.foldl_cons, List.all_cons]
      by_cases h : x.2.isPlaying
      · rw [if_pos h, ih]
        simp [h, Bool.and_assoc]
      · rw [if_neg h, ih]
        simp [h]

/-- C8: `stopAllPlayers` invokes `stop()` exactly on the registered
    players whose state reports playing, resolves `true` if and only if
    every such stop completed cleanly (`false` if any stop returned
    `false` or threw), and clears the player map unconditionally, so
    the player count is `0` afterwards. -/
theorem stopAllPlayers_spec (players : List (String × PlayerModel)) :
    (stopAllPlayers players).2.1 = []
    ∧ ((stopAllPlayers players).1 = true ↔
        ∀ kp ∈ players, kp.2.isPlaying = true → stopCleanly kp.2 = true)
    ∧ (stopAllPlayers players).2.2
        = (players.filter fun kp => kp.2.isPlaying).map Prod.fst := by
  refine ⟨rfl, ?_, rfl⟩
  unfold stopAllPlayers
  simp only
  rw [foldl_allStopped players true, Bool.true_and, List.all_eq_true]
  constructor
  · intro h kp hkp hplay
    have h2 := h kp hkp
    rw [hplay] at h2
    simpa using h2
  · intro h kp hkp
    by_cases hplay : kp.2.isPlaying = true
    · simp [hplay, h kp hkp hplay]
    · have hfalse : kp.2.isPlaying = false := by
        revert hplay
        cases kp.2.isPlaying <;> simp
      simp [hfalse]

/-- C8 witness: one playing player whose stop resolves `true` gives a
    clean bulk stop with the map cleared. -/
theorem stopAllPlayers_spec_witness :
    (stopAllPlayers [("a", ⟨true, some (.ok true)⟩)]).2.1 = []
    ∧ (stopAllPlayers [("a", ⟨true, some (.ok true)⟩)]).1 = true :=
  ⟨(stopAllPlayers_spec [("a", ⟨true, some (.ok true)⟩)]).1,
   (stopAllPlayers_spec [("a", ⟨true, some (.ok true)⟩)]).2.1.mpr (by decide)⟩

/-- C10: `stopAllExtractors` always resolves `true` — individual cancel
    outcomes, including throws, are discarded — and clears the
    extractor map, so the extractor count is `0` afterwards. -/
theorem stopAllExtractors_spec (extractors : List (String × ExtractorModel)) :
    (stopAllExtractors extractors).1 = true
    ∧ (stopAllExtractors extractors).2.length = 0 :=
  ⟨rfl, rfl⟩

end AudioWaveformFactory
